import Mathlib

/-
Verification of the fast-float-compare crate (src/lib.rs).

The crate decomposes a finite IEEE-754 binary64 value into an explicit
(mantissa, exponent, sign) triple and defines a total order on the triples.

Shallow embedding conventions:
- An `f64` value is modelled by its 64-bit pattern, a natural number `bits < 2^64`.
  This is faithful: `value.to_bits()` / `f64::from_bits` are bijections between
  `f64` values and 64-bit patterns, and every operation of the crate only ever
  inspects the bit pattern.
- `u64` becomes `Nat` (with explicit `% 2^64` wherever the source could wrap),
  `i16` becomes `Int`, `bool` becomes `Bool`.
- Rust's `Ordering` is Lean's `Ordering` (`Less`/`Equal`/`Greater` are
  `.lt`/`.eq`/`.gt`); `Ordering::reverse` is `reverseOrd` below.
- `value.is_nan() || value.is_infinite()` holds exactly when the raw 11-bit
  exponent field of the bit pattern is all ones (`0x7ff`), which is how the
  guard of `from_f64` is expressed on bit patterns.
-/

namespace FastFloatCompare

/-- Model of `core::cmp::Ordering::reverse`. -/
def reverseOrd : Ordering → Ordering
  | Ordering.lt => Ordering.gt
  | Ordering.eq => Ordering.eq
  | Ordering.gt => Ordering.lt

/-- Model of `Ord::cmp` on `u64` (here: on `Nat`). -/
def u64_cmp (a b : Nat) : Ordering :=
  if a < b then Ordering.lt else if a = b then Ordering.eq else Ordering.gt

/-- Model of `Ord::cmp` on `i16` (here: on `Int`). -/
def i16_cmp (a b : Int) : Ordering :=
  if a < b then Ordering.lt else if a = b then Ordering.eq else Ordering.gt

/-- Model of `Ord::cmp` on `bool`: `false < true`. -/
def bool_cmp (a b : Bool) : Ordering :=
  match a, b with
  | false, true => Ordering.lt
  | true, false => Ordering.gt
  | _, _ => Ordering.eq

/-- The `Float` struct of src/lib.rs: mantissa (`u64`), exponent (`i16`),
sign (`bool`, `true` for non-negative).  Structural equality of the triple is
the derived `PartialEq`/`Eq` of the source. -/
structure Float where
  mantissa : Nat
  exponent : Int
  sign : Bool
deriving DecidableEq, Repr

/-- The private constructor `Float::new`. -/
def Float.new (mantissa : Nat) (exponent : Int) (sign : Bool) : Float :=
  { mantissa := mantissa, exponent := exponent, sign := sign }

/-- Model of `Float::from_f64`, on the 64-bit pattern of the input value.
The source first rejects NaN and infinities (`value.is_nan() ||
value.is_infinite()`), i.e. exactly the patterns whose raw exponent field is
all ones; then it extracts the fields from `value.to_bits()`. -/
def Float.from_f64 (bits : Nat) : Option Float :=
  if (bits >>> 52) &&& 0x7ff = 0x7ff then none
  else
    -- let sign = bits >> 63 == 0;
    let sign : Bool := bits >>> 63 == 0
    -- let exponent: i16 = ((bits >> 52) & 0x7ff) as i16;
    let exponent : Int := ((bits >>> 52) &&& 0x7ff : Nat)
    -- subnormal: (bits & 0xfffffffffffff) << 1 ; normal: (bits & 0xfffffffffffff) | 0x10000000000000
    let mantissa : Nat :=
      if exponent = 0 then ((bits &&& 0xfffffffffffff) <<< 1) % 2 ^ 64
      else (bits &&& 0xfffffffffffff) ||| 0x10000000000000
    some (Float.new mantissa exponent sign)

/-- Model of `Float::to_f64`, returning the 64-bit pattern of the result.
`(exponent as u64) << 52` is taken in the branch where `exponent > 0`, so the
`i16 -> u64` cast is `Int.toNat`; the shift wraps modulo `2^64`. -/
def Float.to_f64 (x : Float) : Nat :=
  let exponent := x.exponent
  let sign_bit : Nat := if !x.sign then 1 <<< 63 else 0
  let mb_eb : Nat × Nat :=
    if exponent ≤ 0 then ((x.mantissa >>> 1) &&& 0xfffffffffffff, 0)
    else (x.mantissa &&& 0xfffffffffffff, (exponent.toNat <<< 52) % 2 ^ 64)
  sign_bit ||| mb_eb.2 ||| mb_eb.1

/-- Model of `impl Ord for Float` (`cmp`). -/
def Float.cmp (x y : Float) : Ordering :=
  match bool_cmp x.sign y.sign with
  | Ordering.eq =>
    if x.sign then
      match i16_cmp x.exponent y.exponent with
      | Ordering.eq => u64_cmp x.mantissa y.mantissa
      | ord => ord
    else
      match i16_cmp x.exponent y.exponent with
      | Ordering.eq => u64_cmp y.mantissa x.mantissa
      | ord => reverseOrd ord
  | ord => ord

/-- Model of `impl PartialOrd for Float` (`partial_cmp`), which is
`Some(self.cmp(other))` in the source. -/
def Float.pcmp (x y : Float) : Option Ordering := some (x.cmp y)

/-- An IEEE-754 binary64 NaN pattern: exponent field all ones, fraction
nonzero. -/
def isNaNBits (b : Nat) : Prop := (b / 2 ^ 52) % 2 ^ 11 = 0x7ff ∧ b % 2 ^ 52 ≠ 0

instance (b : Nat) : Decidable (isNaNBits b) := by unfold isNaNBits; infer_instance

/-- An IEEE-754 binary64 infinity pattern: exponent field all ones, fraction
zero. -/
def isInfBits (b : Nat) : Prop := (b / 2 ^ 52) % 2 ^ 11 = 0x7ff ∧ b % 2 ^ 52 = 0

instance (b : Nat) : Decidable (isInfBits b) := by unfold isInfBits; infer_instance

/-- The exact real number (a rational) denoted by a finite binary64 bit
pattern, per IEEE-754: sign `(-1)^s`, subnormal value `F * 2^(-1074)` when the
exponent field is zero, normal value `(2^52 + F) * 2^(E - 1075)` otherwise. -/
def f64Val (b : Nat) : ℚ :=
  let s : Nat := b / 2 ^ 63
  let E : Nat := (b / 2 ^ 52) % 2 ^ 11
  let F : Nat := b % 2 ^ 52
  (if s = 0 then 1 else -1) *
    (if E = 0 then (F : ℚ) * (2 : ℚ) ^ (-1074 : ℤ)
     else ((2 ^ 52 + F : ℕ) : ℚ) * (2 : ℚ) ^ ((E : ℤ) - 1075))

/-- Comparison of two rationals as an `Ordering` (the real-number comparison
the spec refers to). -/
def cmpRat (x y : ℚ) : Ordering :=
  if x < y then Ordering.lt else if x = y then Ordering.eq else Ordering.gt

/-- The magnitude of the value denoted by exponent field `E` and fraction
field `F`, scaled by `2^1074` so that it is a natural number:
`|f64Val| * 2^1074 = (if E = 0 then F else 2^52 + F) * 2^(E-1)`. -/
def scaledMag (E F : Nat) : Nat := (if E = 0 then F else 2 ^ 52 + F) * 2 ^ (E - 1)

/-- A finite (neither NaN nor infinite) binary64 bit pattern. -/
def finiteBits (b : Nat) : Prop := b < 2 ^ 64 ∧ (b / 2 ^ 52) % 2 ^ 11 ≠ 2047

instance (b : Nat) : Decidable (finiteBits b) := by unfold finiteBits; infer_instance

lemma land_mask52 (x : Nat) : x &&& 0xfffffffffffff = x % 2 ^ 52 := by
  have h : (0xfffffffffffff : Nat) = 2 ^ 52 - 1 := by norm_num
  rw [h, Nat.and_pow_two_sub_one_eq_mod]

lemma land_mask11 (x : Nat) : x &&& 0x7ff = x % 2 ^ 11 := by
  have h : (0x7ff : Nat) = 2 ^ 11 - 1 := by norm_num
  rw [h, Nat.and_pow_two_sub_one_eq_mod]

lemma lor_two_pow_mul (k : Nat) :
    ∀ a q : Nat, a < 2 ^ k → a ||| 2 ^ k * q = a + 2 ^ k * q := by
  induction k with
  | zero =>
    intro a q ha
    have ha0 : a = 0 := by simpa using Nat.lt_one_iff.mp (by simpa using ha)
    subst ha0
    simp [Nat.zero_or]
  | succ k ih =>
    intro a q ha
    have hbit : Nat.bit a.bodd a.div2 = a := Nat.bit_decomp a
    have h2 : 2 ^ (k + 1) * q = Nat.bit false (2 ^ k * q) := by
      rw [Nat.bit_val]; simp; ring
    have ha' : a.div2 < 2 ^ k := by
      rw [Nat.div2_val]
      have hp : 2 ^ (k + 1) = 2 ^ k * 2 := by ring
      omega
    calc a ||| 2 ^ (k + 1) * q
        = Nat.bit a.bodd a.div2 ||| Nat.bit false (2 ^ k * q) := by rw [hbit, ← h2]
      _ = Nat.bit (a.bodd || false) (a.div2 ||| 2 ^ k * q) := Nat.lor_bit _ _ _ _
      _ = Nat.bit a.bodd (a.div2 + 2 ^ k * q) := by rw [Bool.or_false, ih _ _ ha']
      _ = a + 2 ^ (k + 1) * q := by
          rw [Nat.bit_val]
          have hb := Nat.bodd_add_div2 a
          have hp : 2 ^ (k + 1) * q = 2 * (2 ^ k * q) := by ring
          omega

/-- Arithmetic characterization of `Float.from_f64`: the guard tests the raw
exponent field, the sign comes from bit 63, and the mantissa is the fraction
field doubled (subnormal) or with the implicit bit added (normal). -/
lemma from_f64_eq (b : Nat) :
    Float.from_f64 b =
      if (b / 2 ^ 52) % 2 ^ 11 = 2047 then none
      else some (Float.new
        (if (b / 2 ^ 52) % 2 ^ 11 = 0 then 2 * (b % 2 ^ 52) else 2 ^ 52 + b % 2 ^ 52)
        (((b / 2 ^ 52) % 2 ^ 11 : Nat) : Int)
        (b / 2 ^ 63 == 0)) := by
  simp only [Float.from_f64, Nat.shiftRight_eq_div_pow, land_mask11, land_mask52,
    Nat.shiftLeft_eq, pow_one]
  by_cases h1 : b / 2 ^ 52 % 2 ^ 11 = 2047
  · rw [if_pos h1, if_pos h1]
  · rw [if_neg h1, if_neg h1]
    have hcast : (((b / 2 ^ 52 % 2 ^ 11 : Nat) : ℤ) = 0) ↔ b / 2 ^ 52 % 2 ^ 11 = 0 :=
      Nat.cast_eq_zero
    by_cases h0 : b / 2 ^ 52 % 2 ^ 11 = 0
    · rw [if_pos (hcast.mpr h0), if_pos h0]
      have hmod : b % 2 ^ 52 * 2 % 2 ^ 64 = 2 * (b % 2 ^ 52) := by omega
      rw [hmod]
    · rw [if_neg (fun hc => h0 (hcast.mp hc)), if_neg h0]
      have hor : b % 2 ^ 52 ||| 0x10000000000000 = 2 ^ 52 + b % 2 ^ 52 := by
        have h52 : (0x10000000000000 : Nat) = 2 ^ 52 * 1 := by norm_num
        rw [h52, lor_two_pow_mul 52 _ 1 (Nat.mod_lt _ (by norm_num))]
        omega
      rw [hor]

lemma or3 (s e m : Nat) (hs : s = 0 ∨ s = 2 ^ 63) (he : ∃ k, k ≤ 2047 ∧ e = k * 2 ^ 52)
    (hm : m < 2 ^ 52) : s ||| e ||| m = s + e + m := by
  obtain ⟨k, hk, rfl⟩ := he
  have h1 : s ||| k * 2 ^ 52 = s + k * 2 ^ 52 := by
    rcases hs with rfl | rfl
    · rw [Nat.zero_or, Nat.zero_add]
    · rw [Nat.lor_comm, show (2 : Nat) ^ 63 = 2 ^ 63 * 1 by ring,
        lor_two_pow_mul 63 _ 1 (by omega)]
      omega
  rw [h1]
  have h2 : s + k * 2 ^ 52 = 2 ^ 52 * (k + 2 ^ 11 * (s / 2 ^ 63)) := by
    rcases hs with rfl | rfl <;> omega
  rw [h2, Nat.lor_comm, lor_two_pow_mul 52 _ _ hm, h2.symm]
  omega

lemma or2 (s m : Nat) (hs : s = 0 ∨ s = 2 ^ 63) (hm : m < 2 ^ 63) : s ||| m = s + m := by
  rcases hs with rfl | rfl
  · rw [Nat.zero_or, Nat.zero_add]
  · rw [Nat.lor_comm, show (2 : Nat) ^ 63 = 2 ^ 63 * 1 by ring, lor_two_pow_mul 63 _ 1 hm]
    omega

lemma ite_not_bool (b : Bool) (A B : Nat) : (if !b then A else B) = if b then B else A := by
  cases b <;> simp

/-- Arithmetic characterization of `Float.to_f64` for exponents in the binary64
range: the three fields are disjoint, so the bitwise or is a sum. -/
lemma to_f64_eq (x : Float) (hE : x.exponent ≤ 2047) :
    x.to_f64 = (if x.sign then 0 else 2 ^ 63)
      + (if x.exponent ≤ 0 then 0 else x.exponent.toNat * 2 ^ 52)
      + (if x.exponent ≤ 0 then x.mantissa / 2 % 2 ^ 52 else x.mantissa % 2 ^ 52) := by
  simp only [Float.to_f64]
  have hsf : (if x.sign then (0 : Nat) else 2 ^ 63) = 0 ∨
      (if x.sign then (0 : Nat) else 2 ^ 63) = 2 ^ 63 := by
    cases x.sign <;> simp
  by_cases h0 : x.exponent ≤ 0
  · simp only [if_pos h0]
    rw [Nat.or_zero, ite_not_bool, show (1 : Nat) <<< 63 = 2 ^ 63 by
      rw [Nat.shiftLeft_eq, one_mul]]
    rw [Nat.shiftRight_eq_div_pow, pow_one, land_mask52]
    rw [or2 _ _ hsf (by omega)]
    omega
  · simp only [if_neg h0]
    rw [ite_not_bool, show (1 : Nat) <<< 63 = 2 ^ 63 by rw [Nat.shiftLeft_eq, one_mul]]
    rw [Nat.shiftLeft_eq, land_mask52]
    have htn : x.exponent.toNat ≤ 2047 := by omega
    have hmod : x.exponent.toNat * 2 ^ 52 % 2 ^ 64 = x.exponent.toNat * 2 ^ 52 :=
      Nat.mod_eq_of_lt (by omega)
    rw [hmod, or3 _ _ _ hsf ⟨x.exponent.toNat, htn, rfl⟩ (by omega)]

/-- Restatement of `to_f64_eq` on the components of `Float.new`. -/
lemma to_f64_new_eq (m : Nat) (e : Int) (s : Bool) (hE : e ≤ 2047) :
    (Float.new m e s).to_f64 = (if s then 0 else 2 ^ 63)
      + (if e ≤ 0 then 0 else e.toNat * 2 ^ 52)
      + (if e ≤ 0 then m / 2 % 2 ^ 52 else m % 2 ^ 52) :=
  to_f64_eq (Float.new m e s) hE

/-- Round-trip helper: reconstructing a finite pattern after decomposition
gives back the pattern, bit for bit. -/
lemma map_to_from (b : Nat) (hb : finiteBits b) :
    (Float.from_f64 b).map Float.to_f64 = some b := by
  obtain ⟨hb64, hE⟩ := hb
  rw [from_f64_eq, if_neg hE]
  simp only [Option.map_some']
  congr 1
  have hle : ((b / 2 ^ 52 % 2 ^ 11 : Nat) : ℤ) ≤ 2047 := by omega
  rw [to_f64_new_eq _ _ _ hle]
  simp only [beq_iff_eq]
  split_ifs <;> omega

/-- C1: for every finite, non-NaN binary64 pattern `b` (including signed
zeros, subnormals and the normal/subnormal boundary), `from_f64` succeeds and
`to_f64` of the result is bit-for-bit equal to `b`. -/
theorem claim_C1 (b : Nat) (hb : finiteBits b) :
    (Float.from_f64 b).map Float.to_f64 = some b :=
  map_to_from b hb

/-- Witness for C1 at the smallest normal number `2.2250738585072014e-308`
(bit pattern `2^52`), straddling the subnormal/normal boundary. -/
theorem claim_C1_witness :
    finiteBits 4503599627370496 ∧
      (Float.from_f64 4503599627370496).map Float.to_f64 = some 4503599627370496 :=
  ⟨by decide, claim_C1 4503599627370496 (by decide)⟩

/-- C3: `from_f64` returns `none` exactly on NaN and infinity patterns, and
`some` on every finite pattern. -/
theorem claim_C3 (b : Nat) :
    Float.from_f64 b = none ↔ isNaNBits b ∨ isInfBits b := by
  rw [from_f64_eq]
  unfold isNaNBits isInfBits
  by_cases h : b / 2 ^ 52 % 2 ^ 11 = 2047
  · rw [if_pos h]
    constructor
    · intro _; omega
    · intro _; rfl
  · rw [if_neg h]
    constructor
    · intro hc; exact absurd hc (by simp)
    · intro hc; exfalso; omega

/-- Witness for C3 at the canonical quiet-NaN pattern `0x7ff8000000000000`
and at the two infinity patterns. -/
theorem claim_C3_witness :
    (Float.from_f64 0x7ff8000000000000 = none ↔
      isNaNBits 0x7ff8000000000000 ∨ isInfBits 0x7ff8000000000000) ∧
    (Float.from_f64 0x7ff0000000000000 = none ↔
      isNaNBits 0x7ff0000000000000 ∨ isInfBits 0x7ff0000000000000) :=
  ⟨claim_C3 0x7ff8000000000000, claim_C3 0x7ff0000000000000⟩

/-- C5: the decompositions of `+0.0` (pattern 0) and `-0.0` (pattern `2^63`)
differ in the sign field, are not structurally equal, and `cmp` orders the
`-0.0` decomposition strictly below the `+0.0` one. -/
theorem claim_C5 :
    Float.from_f64 0 = some (Float.new 0 0 true) ∧
    Float.from_f64 (2 ^ 63) = some (Float.new 0 0 false) ∧
    (Float.new 0 0 false).sign ≠ (Float.new 0 0 true).sign ∧
    Float.new 0 0 false ≠ Float.new 0 0 true ∧
    (Float.new 0 0 false).cmp (Float.new 0 0 true) = Ordering.lt := by
  decide

/-- C6: field characterization of `from_f64`: sign is `bit 63 = 0`, exponent
is the raw 11-bit field (range 0–2047), mantissa is the fraction doubled for
subnormals and the fraction with bit 52 set (range `[2^52, 2^53)`) for
normals. -/
theorem claim_C6 (b : Nat) (x : Float) (hb : b < 2 ^ 64)
    (hx : Float.from_f64 b = some x) :
    (x.sign = true ↔ b.testBit 63 = false) ∧
    x.exponent = (b / 2 ^ 52 % 2 ^ 11 : Nat) ∧
    0 ≤ x.exponent ∧ x.exponent ≤ 2047 ∧
    (b / 2 ^ 52 % 2 ^ 11 = 0 → x.mantissa = 2 * (b % 2 ^ 52)) ∧
    (b / 2 ^ 52 % 2 ^ 11 ≠ 0 →
      x.mantissa = 2 ^ 52 + b % 2 ^ 52 ∧ 2 ^ 52 ≤ x.mantissa ∧ x.mantissa < 2 ^ 53) := by
  rw [from_f64_eq] at hx
  by_cases h : b / 2 ^ 52 % 2 ^ 11 = 2047
  · rw [if_pos h] at hx; exact absurd hx (by simp)
  · rw [if_neg h] at hx
    have hx' := Option.some.inj hx
    subst hx'
    refine ⟨?_, rfl, ?_, ?_, ?_, ?_⟩
    · simp only [Float.new, beq_iff_eq, Nat.testBit_to_div_mod]
      rw [decide_eq_false_iff_not]
      omega
    · simp only [Float.new]; omega
    · simp only [Float.new]; omega
    · intro h0; simp only [Float.new, if_pos h0]
    · intro h0; simp only [Float.new, if_neg h0]
      exact ⟨trivial, by omega, by omega⟩

/-- Witness for C6 at the smallest positive subnormal (pattern 1). -/
theorem claim_C6_witness :
    (1 : Nat) < 2 ^ 64 ∧ Float.from_f64 1 = some (Float.new 2 0 true) ∧
    (((Float.new 2 0 true).sign = true ↔ (1 : Nat).testBit 63 = false) ∧
      (Float.new 2 0 true).exponent = ((1 : Nat) / 2 ^ 52 % 2 ^ 11 : Nat) ∧
      0 ≤ (Float.new 2 0 true).exponent ∧ (Float.new 2 0 true).exponent ≤ 2047 ∧
      ((1 : Nat) / 2 ^ 52 % 2 ^ 11 = 0 →
        (Float.new 2 0 true).mantissa = 2 * ((1 : Nat) % 2 ^ 52)) ∧
      ((1 : Nat) / 2 ^ 52 % 2 ^ 11 ≠ 0 →
        (Float.new 2 0 true).mantissa = 2 ^ 52 + (1 : Nat) % 2 ^ 52 ∧
        2 ^ 52 ≤ (Float.new 2 0 true).mantissa ∧
        (Float.new 2 0 true).mantissa < 2 ^ 53)) :=
  ⟨by decide, by decide, claim_C6 1 (Float.new 2 0 true) (by decide) (by decide)⟩

/-- C9: the decomposition is injective on finite patterns (distinct patterns,
including the two signed zeros, give structurally distinct values), and for
every value in the image of `from_f64` the reverse round trip
`from_f64 (to_f64 x)` restores exactly `x`. -/
theorem claim_C9 :
    (∀ a b : Nat, finiteBits a → finiteBits b → a ≠ b →
      Float.from_f64 a ≠ Float.from_f64 b) ∧
    (∀ (b : Nat) (x : Float), finiteBits b → Float.from_f64 b = some x →
      Float.from_f64 x.to_f64 = some x) := by
  constructor
  · intro a b ha hb hne h
    have h1 := map_to_from a ha
    have h2 := map_to_from b hb
    rw [h, h2] at h1
    exact hne (Option.some.inj h1).symm
  · intro b x hb hx
    have h1 := map_to_from b hb
    rw [hx] at h1
    simp only [Option.map_some'] at h1
    rw [Option.some.inj h1, hx]

/-- Witness for C9: injectivity separates the two signed-zero patterns, and
the reverse round trip holds at the decomposition of `1.0`. -/
theorem claim_C9_witness :
    (finiteBits 0 ∧ finiteBits (2 ^ 63) ∧ (0 : Nat) ≠ 2 ^ 63 ∧
      Float.from_f64 0 ≠ Float.from_f64 (2 ^ 63)) ∧
    (finiteBits 4607182418800017408 ∧
      Float.from_f64 4607182418800017408 = some (Float.new (2 ^ 52) 1023 true) ∧
      Float.from_f64 (Float.new (2 ^ 52) 1023 true).to_f64 =
        some (Float.new (2 ^ 52) 1023 true)) :=
  ⟨⟨by decide, by decide, by decide,
      claim_C9.1 0 (2 ^ 63) (by decide) (by decide) (by decide)⟩,
    ⟨by decide, by decide,
      claim_C9.2 4607182418800017408 (Float.new (2 ^ 52) 1023 true) (by decide) (by decide)⟩⟩

/-- Evaluation of `cmp` by cases on the two sign fields. -/
lemma cmp_expand (m1 m2 : Nat) (e1 e2 : Int) (s1 s2 : Bool) :
    (Float.mk m1 e1 s1).cmp (Float.mk m2 e2 s2) =
      match s1, s2 with
      | false, true => Ordering.lt
      | true, false => Ordering.gt
      | true, true =>
        (match i16_cmp e1 e2 with
         | Ordering.eq => u64_cmp m1 m2
         | ord => ord)
      | false, false =>
        (match i16_cmp e1 e2 with
         | Ordering.eq => u64_cmp m2 m1
         | ord => reverseOrd ord) := by
  cases s1 <;> cases s2 <;> rfl

lemma i16_cmp_char (a b : Int) :
    (i16_cmp a b = Ordering.lt ↔ a < b) ∧ (i16_cmp a b = Ordering.eq ↔ a = b) ∧
    (i16_cmp a b = Ordering.gt ↔ b < a) := by
  unfold i16_cmp
  split_ifs <;> simp_all <;> omega

lemma u64_cmp_char (a b : Nat) :
    (u64_cmp a b = Ordering.lt ↔ a < b) ∧ (u64_cmp a b = Ordering.eq ↔ a = b) ∧
    (u64_cmp a b = Ordering.gt ↔ b < a) := by
  unfold u64_cmp
  split_ifs <;> simp_all <;> omega

lemma u64_cmp_swap (a b : Nat) : u64_cmp b a = reverseOrd (u64_cmp a b) := by
  unfold u64_cmp reverseOrd
  split_ifs <;> first | rfl | omega

/-- Characterization of `cmp x y = lt`: either the signs differ (negative
before non-negative), or the signs agree and the (exponent, mantissa) pairs
compare lexicographically, reversed for negatives. -/
lemma cmp_lt_iff (x y : Float) : x.cmp y = Ordering.lt ↔
    (x.sign = false ∧ y.sign = true) ∨
    (x.sign = y.sign ∧ x.sign = true ∧
      (x.exponent < y.exponent ∨ (x.exponent = y.exponent ∧ x.mantissa < y.mantissa))) ∨
    (x.sign = y.sign ∧ x.sign = false ∧
      (y.exponent < x.exponent ∨ (x.exponent = y.exponent ∧ y.mantissa < x.mantissa))) := by
  obtain ⟨m1, e1, s1⟩ := x
  obtain ⟨m2, e2, s2⟩ := y
  rw [cmp_expand]
  have hcE := i16_cmp_char e1 e2
  have hcM := u64_cmp_char m1 m2
  have hcM' := u64_cmp_char m2 m1
  cases s1 <;> cases s2 <;>
    cases hI : i16_cmp e1 e2 <;>
      simp only [hI, reverseOrd, true_iff, false_iff, iff_true, iff_false] at hcE ⊢ <;>
      simp [hcM.1, hcM'.1] <;>
      omega

/-- Characterization of `cmp x y = eq`: exactly structural equality of the
triples, i.e. the derived `PartialEq` of the source. -/
lemma cmp_eq_iff (x y : Float) : x.cmp y = Ordering.eq ↔ x = y := by
  obtain ⟨m1, e1, s1⟩ := x
  obtain ⟨m2, e2, s2⟩ := y
  rw [cmp_expand]
  have hcE := i16_cmp_char e1 e2
  have hcM := u64_cmp_char m1 m2
  have hcM' := u64_cmp_char m2 m1
  cases s1 <;> cases s2 <;>
    cases hI : i16_cmp e1 e2 <;>
      simp only [hI, reverseOrd, true_iff, false_iff, iff_true, iff_false] at hcE ⊢ <;>
      simp [hcM.2.1, hcM'.2.1, Float.mk.injEq] <;>
      omega

/-- Comparing in the opposite direction reverses the ordering. -/
lemma cmp_swap (x y : Float) : y.cmp x = reverseOrd (x.cmp y) := by
  obtain ⟨m1, e1, s1⟩ := x
  obtain ⟨m2, e2, s2⟩ := y
  rw [cmp_expand, cmp_expand]
  rcases lt_trichotomy e1 e2 with h | h | h
  · have h1 : i16_cmp e1 e2 = Ordering.lt := (i16_cmp_char _ _).1.mpr h
    have h2 : i16_cmp e2 e1 = Ordering.gt := (i16_cmp_char _ _).2.2.mpr h
    cases s1 <;> cases s2 <;> simp [h1, h2, reverseOrd]
  · subst h
    have h1 : i16_cmp e1 e1 = Ordering.eq := (i16_cmp_char _ _).2.1.mpr rfl
    cases s1 <;> cases s2 <;> simp only [h1, reverseOrd] <;>
      first
        | rfl
        | exact u64_cmp_swap m1 m2
        | exact u64_cmp_swap m2 m1
  · have h1 : i16_cmp e1 e2 = Ordering.gt := (i16_cmp_char _ _).2.2.mpr h
    have h2 : i16_cmp e2 e1 = Ordering.lt := (i16_cmp_char _ _).1.mpr h
    cases s1 <;> cases s2 <;> simp [h1, h2, reverseOrd]

/-- Transitivity of the strict order induced by `cmp`. -/
lemma cmp_trans {x y z : Float} (h1 : x.cmp y = Ordering.lt)
    (h2 : y.cmp z = Ordering.lt) : x.cmp z = Ordering.lt := by
  rw [cmp_lt_iff] at h1 h2 ⊢
  rcases h1 with ⟨ha, hb⟩ | ⟨ha, hb, hc⟩ | ⟨ha, hb, hc⟩ <;>
    rcases h2 with ⟨hd, he⟩ | ⟨hd, he, hf⟩ | ⟨hd, he, hf⟩ <;>
    simp_all <;> omega

/-- Trichotomy: for any two values exactly one of `lt`, structural equality
(with `eq`), `gt` holds. -/
lemma cmp_trichotomy (x y : Float) :
    (x.cmp y = Ordering.lt ∧ x ≠ y ∧ x.cmp y ≠ Ordering.gt) ∨
    (x = y ∧ x.cmp y = Ordering.eq) ∨
    (x.cmp y = Ordering.gt ∧ x ≠ y ∧ x.cmp y ≠ Ordering.lt) := by
  cases ho : x.cmp y with
  | lt =>
    refine Or.inl ⟨rfl, ?_, by simp⟩
    intro he
    rw [← cmp_eq_iff] at he
    rw [he] at ho
    exact Ordering.noConfusion ho
  | eq => exact Or.inr (Or.inl ⟨(cmp_eq_iff x y).mp ho, rfl⟩)
  | gt =>
    refine Or.inr (Or.inr ⟨rfl, ?_, by simp⟩)
    intro he
    rw [← cmp_eq_iff] at he
    rw [he] at ho
    exact Ordering.noConfusion ho

/-- C4: over constructed values, `cmp` is a strict total order: transitive,
and for every pair exactly one of `lt`, structural equality (with `eq`), `gt`
holds. -/
theorem claim_C4 (a b c : Nat) (x y z : Float)
    (_hx : Float.from_f64 a = some x) (_hy : Float.from_f64 b = some y)
    (_hz : Float.from_f64 c = some z) :
    (x.cmp y = Ordering.lt → y.cmp z = Ordering.lt → x.cmp z = Ordering.lt) ∧
    ((x.cmp y = Ordering.lt ∧ x ≠ y ∧ x.cmp y ≠ Ordering.gt) ∨
     (x = y ∧ x.cmp y = Ordering.eq) ∨
     (x.cmp y = Ordering.gt ∧ x ≠ y ∧ x.cmp y ≠ Ordering.lt)) :=
  ⟨fun h1 h2 => cmp_trans h1 h2, cmp_trichotomy x y⟩

/-- Witness for C4 at the decompositions of `1.0`, `2.0` and `3.0`. -/
theorem claim_C4_witness :
    Float.from_f64 4607182418800017408 = some (Float.new (2 ^ 52) 1023 true) ∧
    Float.from_f64 4611686018427387904 = some (Float.new (2 ^ 52) 1024 true) ∧
    Float.from_f64 4613937818241073152 = some (Float.new 6755399441055744 1024 true) ∧
    (((Float.new (2 ^ 52) 1023 true).cmp (Float.new (2 ^ 52) 1024 true) = Ordering.lt →
        (Float.new (2 ^ 52) 1024 true).cmp (Float.new 6755399441055744 1024 true) =
          Ordering.lt →
        (Float.new (2 ^ 52) 1023 true).cmp (Float.new 6755399441055744 1024 true) =
          Ordering.lt) ∧
      (((Float.new (2 ^ 52) 1023 true).cmp (Float.new (2 ^ 52) 1024 true) = Ordering.lt ∧
          Float.new (2 ^ 52) 1023 true ≠ Float.new (2 ^ 52) 1024 true ∧
          (Float.new (2 ^ 52) 1023 true).cmp (Float.new (2 ^ 52) 1024 true) ≠
            Ordering.gt) ∨
        (Float.new (2 ^ 52) 1023 true = Float.new (2 ^ 52) 1024 true ∧
          (Float.new (2 ^ 52) 1023 true).cmp (Float.new (2 ^ 52) 1024 true) = Ordering.eq) ∨
        ((Float.new (2 ^ 52) 1023 true).cmp (Float.new (2 ^ 52) 1024 true) = Ordering.gt ∧
          Float.new (2 ^ 52) 1023 true ≠ Float.new (2 ^ 52) 1024 true ∧
          (Float.new (2 ^ 52) 1023 true).cmp (Float.new (2 ^ 52) 1024 true) ≠
            Ordering.lt))) :=
  ⟨by decide, by decide, by decide,
    claim_C4 4607182418800017408 4611686018427387904 4613937818241073152
      (Float.new (2 ^ 52) 1023 true) (Float.new (2 ^ 52) 1024 true)
      (Float.new 6755399441055744 1024 true) (by decide) (by decide) (by decide)⟩

/-- C8: when both values are negative (sign fields equal and `false`), `cmp`
compares the exponents with the result reversed (larger exponent is ordered
smaller), and on an exponent tie compares the mantissas in reversed order
(larger mantissa is ordered smaller). -/
theorem claim_C8 (x y : Float) (hx : x.sign = false) (hy : y.sign = false) :
    (x.exponent < y.exponent → x.cmp y = Ordering.gt) ∧
    (y.exponent < x.exponent → x.cmp y = Ordering.lt) ∧
    (x.exponent = y.exponent →
      ((x.mantissa < y.mantissa → x.cmp y = Ordering.gt) ∧
       (y.mantissa < x.mantissa → x.cmp y = Ordering.lt) ∧
       (y.mantissa = x.mantissa → x.cmp y = Ordering.eq))) := by
  obtain ⟨m1, e1, s1⟩ := x
  obtain ⟨m2, e2, s2⟩ := y
  dsimp only at hx hy
  subst hx hy
  rw [cmp_expand]
  refine ⟨?_, ?_, ?_⟩
  · intro h
    rw [(i16_cmp_char e1 e2).1.mpr h]
    rfl
  · intro h
    rw [(i16_cmp_char e1 e2).2.2.mpr h]
    rfl
  · intro h
    rw [(i16_cmp_char e1 e2).2.1.mpr h]
    exact ⟨fun hm => (u64_cmp_char m2 m1).2.2.mpr hm,
      fun hm => (u64_cmp_char m2 m1).1.mpr hm,
      fun hm => (u64_cmp_char m2 m1).2.1.mpr hm⟩

/-- Witness for C8 at two negative values with equal exponents and at two
negative values with distinct exponents, via a single pair covering the
mantissa-tie branch. -/
theorem claim_C8_witness :
    (Float.new 5 3 false).sign = false ∧ (Float.new 7 3 false).sign = false ∧
    (((Float.new 5 3 false).exponent < (Float.new 7 3 false).exponent →
        (Float.new 5 3 false).cmp (Float.new 7 3 false) = Ordering.gt) ∧
      ((Float.new 7 3 false).exponent < (Float.new 5 3 false).exponent →
        (Float.new 5 3 false).cmp (Float.new 7 3 false) = Ordering.lt) ∧
      ((Float.new 5 3 false).exponent = (Float.new 7 3 false).exponent →
        (((Float.new 5 3 false).mantissa < (Float.new 7 3 false).mantissa →
            (Float.new 5 3 false).cmp (Float.new 7 3 false) = Ordering.gt) ∧
          ((Float.new 7 3 false).mantissa < (Float.new 5 3 false).mantissa →
            (Float.new 5 3 false).cmp (Float.new 7 3 false) = Ordering.lt) ∧
          ((Float.new 7 3 false).mantissa = (Float.new 5 3 false).mantissa →
            (Float.new 5 3 false).cmp (Float.new 7 3 false) = Ordering.eq)))) :=
  ⟨rfl, rfl, claim_C8 (Float.new 5 3 false) (Float.new 7 3 false) rfl rfl⟩

/-- C10: over all triples (not only constructed ones) `cmp` is a lawful total
order: `eq` exactly at structural equality, swapping the arguments reverses
the result, the strict order is transitive, and `partial_cmp` always returns
`some` of the `cmp` result. -/
theorem claim_C10 (x y z : Float) :
    (x.cmp y = Ordering.eq ↔ x = y) ∧
    (y.cmp x = reverseOrd (x.cmp y)) ∧
    (x.cmp y = Ordering.lt → y.cmp z = Ordering.lt → x.cmp z = Ordering.lt) ∧
    x.pcmp y = some (x.cmp y) :=
  ⟨cmp_eq_iff x y, cmp_swap x y, fun h1 h2 => cmp_trans h1 h2, rfl⟩

/-- Witness for C10 at a concrete triple of arbitrary (not necessarily
constructible) field values. -/
theorem claim_C10_witness :
    ((Float.new 1 5 true).cmp (Float.new 1 5 true) = Ordering.eq ↔
      Float.new 1 5 true = Float.new 1 5 true) ∧
    ((Float.new 1 5 true).cmp (Float.new 1 5 true) =
      reverseOrd ((Float.new 1 5 true).cmp (Float.new 1 5 true))) ∧
    ((Float.new 1 5 true).cmp (Float.new 1 5 true) = Ordering.lt →
      (Float.new 1 5 true).cmp (Float.new 9 (-7) false) = Ordering.lt →
      (Float.new 1 5 true).cmp (Float.new 9 (-7) false) = Ordering.lt) ∧
    (Float.new 1 5 true).pcmp (Float.new 1 5 true) =
      some ((Float.new 1 5 true).cmp (Float.new 1 5 true)) :=
  claim_C10 (Float.new 1 5 true) (Float.new 1 5 true) (Float.new 9 (-7) false)

/-- The scaled magnitude is strictly monotone in the packed non-sign bits
`E * 2^52 + F` of a pattern. -/
lemma scaledMag_lt {E1 F1 E2 F2 : Nat} (hF1 : F1 < 2 ^ 52) (hF2 : F2 < 2 ^ 52)
    (h : E1 * 2 ^ 52 + F1 < E2 * 2 ^ 52 + F2) : scaledMag E1 F1 < scaledMag E2 F2 := by
  unfold scaledMag
  have hE : E1 ≤ E2 := by omega
  rcases Nat.eq_or_lt_of_le hE with rfl | hlt
  · have hF : F1 < F2 := by omega
    split_ifs with h0
    · exact mul_lt_mul_of_pos_right hF (by positivity)
    · exact mul_lt_mul_of_pos_right (by omega) (by positivity)
  · have hE2 : E2 ≠ 0 := by omega
    by_cases h0 : E1 = 0
    · subst h0
      rw [if_pos rfl, if_neg hE2]
      calc F1 * 2 ^ (0 - 1) = F1 := by norm_num
        _ < 2 ^ 52 := hF1
        _ ≤ (2 ^ 52 + F2) * 2 ^ (E2 - 1) := by
            calc (2 : Nat) ^ 52 = 2 ^ 52 * 1 := (mul_one _).symm
              _ ≤ (2 ^ 52 + F2) * 2 ^ (E2 - 1) :=
                  Nat.mul_le_mul (by omega) (Nat.one_le_two_pow)
    · rw [if_neg h0, if_neg hE2]
      calc (2 ^ 52 + F1) * 2 ^ (E1 - 1)
          < 2 ^ 53 * 2 ^ (E1 - 1) := mul_lt_mul_of_pos_right (by omega) (by positivity)
        _ = 2 ^ (53 + (E1 - 1)) := by rw [← pow_add]
        _ ≤ 2 ^ (52 + (E2 - 1)) := Nat.pow_le_pow_right (by norm_num) (by omega)
        _ = 2 ^ 52 * 2 ^ (E2 - 1) := by rw [pow_add]
        _ ≤ (2 ^ 52 + F2) * 2 ^ (E2 - 1) := Nat.mul_le_mul (by omega) (le_refl _)

/-- Comparing scaled magnitudes is the same as comparing the packed non-sign
bits. -/
lemma u64_cmp_scaledMag (E1 F1 E2 F2 : Nat) (hF1 : F1 < 2 ^ 52) (hF2 : F2 < 2 ^ 52) :
    u64_cmp (scaledMag E1 F1) (scaledMag E2 F2) =
      u64_cmp (E1 * 2 ^ 52 + F1) (E2 * 2 ^ 52 + F2) := by
  rcases lt_trichotomy (E1 * 2 ^ 52 + F1) (E2 * 2 ^ 52 + F2) with h | h | h
  · rw [(u64_cmp_char _ _).1.mpr (scaledMag_lt hF1 hF2 h), (u64_cmp_char _ _).1.mpr h]
  · have hEF : E1 = E2 ∧ F1 = F2 := by omega
    obtain ⟨rfl, rfl⟩ := hEF
    rw [(u64_cmp_char _ _).2.1.mpr rfl, (u64_cmp_char _ _).2.1.mpr rfl]
  · rw [(u64_cmp_char _ _).2.2.mpr (scaledMag_lt hF2 hF1 h), (u64_cmp_char _ _).2.2.mpr h]

/-- Shape of any successful result of `from_f64`. -/
lemma from_f64_some {b : Nat} {x : Float} (hx : Float.from_f64 b = some x) :
    x = Float.new
        (if b / 2 ^ 52 % 2 ^ 11 = 0 then 2 * (b % 2 ^ 52) else 2 ^ 52 + b % 2 ^ 52)
        ((b / 2 ^ 52 % 2 ^ 11 : Nat) : Int) (b / 2 ^ 63 == 0) ∧
      b / 2 ^ 52 % 2 ^ 11 ≠ 2047 := by
  rw [from_f64_eq] at hx
  by_cases h : b / 2 ^ 52 % 2 ^ 11 = 2047
  · rw [if_pos h] at hx
    cases hx
  · rw [if_neg h] at hx
    exact ⟨(Option.some.inj hx).symm, h⟩

lemma cmp_new_pos (Ma Mb : Nat) (Ea Eb : Int) :
    (Float.new Ma Ea true).cmp (Float.new Mb Eb true) =
      match i16_cmp Ea Eb with
      | Ordering.eq => u64_cmp Ma Mb
      | ord => ord := rfl

lemma cmp_new_neg (Ma Mb : Nat) (Ea Eb : Int) :
    (Float.new Ma Ea false).cmp (Float.new Mb Eb false) =
      match i16_cmp Ea Eb with
      | Ordering.eq => u64_cmp Mb Ma
      | ord => reverseOrd ord := rfl

lemma u64_cmp_congr (a b c d : Nat) (h1 : a < b ↔ c < d) (h2 : a = b ↔ c = d) :
    u64_cmp a b = u64_cmp c d := by
  unfold u64_cmp
  split_ifs <;> first | rfl | (exfalso; omega)

/-- For two non-negative finite patterns, `cmp` of the decompositions compares
the packed non-sign bits. -/
lemma cmp_from_pos {a b : Nat} {x y : Float} (hx : Float.from_f64 a = some x)
    (hy : Float.from_f64 b = some y) (hsa : a / 2 ^ 63 = 0) (hsb : b / 2 ^ 63 = 0) :
    x.cmp y = u64_cmp (a / 2 ^ 52 % 2 ^ 11 * 2 ^ 52 + a % 2 ^ 52)
      (b / 2 ^ 52 % 2 ^ 11 * 2 ^ 52 + b % 2 ^ 52) := by
  obtain ⟨hxe, hafin⟩ := from_f64_some hx
  obtain ⟨hye, hbfin⟩ := from_f64_some hy
  rw [hxe, hye, hsa, hsb]
  rw [show ((0 : Nat) == 0) = true from rfl, cmp_new_pos]
  rcases lt_trichotomy (a / 2 ^ 52 % 2 ^ 11) (b / 2 ^ 52 % 2 ^ 11) with h | h | h
  · rw [(i16_cmp_char _ _).1.mpr (by exact_mod_cast h)]
    exact ((u64_cmp_char _ _).1.mpr (by omega)).symm
  · rw [(i16_cmp_char _ _).2.1.mpr (by exact_mod_cast h)]
    by_cases h0 : a / 2 ^ 52 % 2 ^ 11 = 0
    · rw [if_pos h0, if_pos (by omega : b / 2 ^ 52 % 2 ^ 11 = 0)]
      exact u64_cmp_congr _ _ _ _ (by omega) (by omega)
    · rw [if_neg h0, if_neg (by omega : ¬ b / 2 ^ 52 % 2 ^ 11 = 0)]
      exact u64_cmp_congr _ _ _ _ (by omega) (by omega)
  · rw [(i16_cmp_char _ _).2.2.mpr (by exact_mod_cast h)]
    exact ((u64_cmp_char _ _).2.2.mpr (by omega)).symm

/-- For two negative finite patterns, `cmp` of the decompositions compares the
packed non-sign bits in reverse. -/
lemma cmp_from_neg {a b : Nat} {x y : Float} (hx : Float.from_f64 a = some x)
    (hy : Float.from_f64 b = some y) (hsa : a / 2 ^ 63 ≠ 0) (hsb : b / 2 ^ 63 ≠ 0) :
    x.cmp y = u64_cmp (b / 2 ^ 52 % 2 ^ 11 * 2 ^ 52 + b % 2 ^ 52)
      (a / 2 ^ 52 % 2 ^ 11 * 2 ^ 52 + a % 2 ^ 52) := by
  obtain ⟨hxe, hafin⟩ := from_f64_some hx
  obtain ⟨hye, hbfin⟩ := from_f64_some hy
  have hba : (a / 2 ^ 63 == 0) = false := by
    simp only [beq_eq_false_iff_ne, ne_eq]
    exact hsa
  have hbb : (b / 2 ^ 63 == 0) = false := by
    simp only [beq_eq_false_iff_ne, ne_eq]
    exact hsb
  rw [hxe, hye, hba, hbb, cmp_new_neg]
  rcases lt_trichotomy (a / 2 ^ 52 % 2 ^ 11) (b / 2 ^ 52 % 2 ^ 11) with h | h | h
  · rw [(i16_cmp_char _ _).1.mpr (by exact_mod_cast h)]
    exact ((u64_cmp_char _ _).2.2.mpr (by omega)).symm
  · rw [(i16_cmp_char _ _).2.1.mpr (by exact_mod_cast h)]
    by_cases h0 : a / 2 ^ 52 % 2 ^ 11 = 0
    · rw [if_pos h0, if_pos (by omega : b / 2 ^ 52 % 2 ^ 11 = 0)]
      exact u64_cmp_congr _ _ _ _ (by omega) (by omega)
    · rw [if_neg h0, if_neg (by omega : ¬ b / 2 ^ 52 % 2 ^ 11 = 0)]
      exact u64_cmp_congr _ _ _ _ (by omega) (by omega)
  · rw [(i16_cmp_char _ _).2.2.mpr (by exact_mod_cast h)]
    exact ((u64_cmp_char _ _).1.mpr (by omega)).symm

/-- The IEEE value of a pattern is its sign times the scaled magnitude,
rescaled by `2^1074`. -/
lemma f64Val_eq (b : Nat) :
    f64Val b = (if b / 2 ^ 63 = 0 then (1 : ℚ) else -1) *
      (scaledMag (b / 2 ^ 52 % 2 ^ 11) (b % 2 ^ 52) : ℚ) / 2 ^ 1074 := by
  unfold f64Val scaledMag
  by_cases hE : b / 2 ^ 52 % 2 ^ 11 = 0
  · simp only [hE, if_pos rfl]
    have h2 : (2 : ℚ) ^ (-1074 : ℤ) = ((2 : ℚ) ^ (1074 : ℕ))⁻¹ := by norm_num
    rw [h2]
    by_cases hs : b / 2 ^ 63 = 0
    · simp only [if_pos hs]
      push_cast
      ring
    · simp only [if_neg hs]
      push_cast
      ring
  · simp only [if_neg hE]
    have h1 : ((b / 2 ^ 52 % 2 ^ 11 : ℕ) : ℤ) - 1075 =
        ((b / 2 ^ 52 % 2 ^ 11 - 1 : ℕ) : ℤ) - 1074 := by omega
    rw [h1, zpow_sub₀ (by norm_num : (2 : ℚ) ≠ 0), zpow_natCast]
    have h3 : (2 : ℚ) ^ ((1074 : ℤ)) = (2 : ℚ) ^ (1074 : ℕ) := by norm_num
    rw [h3]
    by_cases hs : b / 2 ^ 63 = 0
    · simp only [if_pos hs]
      push_cast
      ring
    · simp only [if_neg hs]
      push_cast
      ring

/-- Dividing both arguments by a positive constant does not change the
rational comparison. -/
lemma cmpRat_div (x y c : ℚ) (hc : 0 < c) : cmpRat (x / c) (y / c) = cmpRat x y := by
  unfold cmpRat
  have hc' : c ≠ 0 := ne_of_gt hc
  have hlt : x / c < y / c ↔ x < y := div_lt_div_iff_of_pos_right hc
  have heq : x / c = y / c ↔ x = y := by
    constructor
    · intro h
      field_simp at h
      exact h
    · intro h
      rw [h]
  simp only [hlt, heq]

lemma cmpRat_natCast (m n : Nat) : cmpRat (m : ℚ) (n : ℚ) = u64_cmp m n := by
  unfold cmpRat u64_cmp
  simp only [Nat.cast_lt, Nat.cast_inj]

lemma cmpRat_neg_natCast (m n : Nat) :
    cmpRat ((-1 : ℚ) * (m : ℚ)) ((-1 : ℚ) * (n : ℚ)) = u64_cmp n m := by
  unfold cmpRat u64_cmp
  simp only [neg_mul, one_mul, neg_lt_neg_iff, neg_inj, Nat.cast_lt, Nat.cast_inj]
  split_ifs <;> first | rfl | omega

lemma scaledMag_eq_zero (E F : Nat) : scaledMag E F = 0 ↔ (E = 0 ∧ F = 0) := by
  unfold scaledMag
  by_cases hE : E = 0
  · subst hE
    simp
  · rw [if_neg hE]
    constructor
    · intro h
      rcases Nat.mul_eq_zero.mp h with h' | h'
      · omega
      · exact absurd h' (Nat.pos_iff_ne_zero.mp (Nat.two_pow_pos _))
    · rintro ⟨h', _⟩
      exact absurd h' hE

/-- For two non-negative patterns the rational comparison of the denoted
values compares the scaled magnitudes. -/
lemma cmpRat_pos (a b : Nat) (hsa : a / 2 ^ 63 = 0) (hsb : b / 2 ^ 63 = 0) :
    cmpRat (f64Val a) (f64Val b) =
      u64_cmp (scaledMag (a / 2 ^ 52 % 2 ^ 11) (a % 2 ^ 52))
        (scaledMag (b / 2 ^ 52 % 2 ^ 11) (b % 2 ^ 52)) := by
  rw [f64Val_eq, f64Val_eq, if_pos hsa, if_pos hsb, one_mul, one_mul]
  rw [cmpRat_div _ _ _ (by positivity)]
  exact cmpRat_natCast _ _

/-- For two negative patterns the rational comparison of the denoted values
compares the scaled magnitudes in reverse. -/
lemma cmpRat_negs (a b : Nat) (hsa : a / 2 ^ 63 ≠ 0) (hsb : b / 2 ^ 63 ≠ 0) :
    cmpRat (f64Val a) (f64Val b) =
      u64_cmp (scaledMag (b / 2 ^ 52 % 2 ^ 11) (b % 2 ^ 52))
        (scaledMag (a / 2 ^ 52 % 2 ^ 11) (a % 2 ^ 52)) := by
  rw [f64Val_eq, f64Val_eq, if_neg hsa, if_neg hsb]
  rw [cmpRat_div _ _ _ (by positivity)]
  exact cmpRat_neg_natCast _ _

/-- A negative value compares below a non-negative one unless both are zero. -/
lemma cmpRat_mixed_lt (a b : Nat) (hsa : a / 2 ^ 63 ≠ 0) (hsb : b / 2 ^ 63 = 0)
    (hnz : scaledMag (a / 2 ^ 52 % 2 ^ 11) (a % 2 ^ 52) ≠ 0 ∨
      scaledMag (b / 2 ^ 52 % 2 ^ 11) (b % 2 ^ 52) ≠ 0) :
    cmpRat (f64Val a) (f64Val b) = Ordering.lt := by
  rw [f64Val_eq, f64Val_eq, if_neg hsa, if_pos hsb]
  have hpos : 0 < scaledMag (a / 2 ^ 52 % 2 ^ 11) (a % 2 ^ 52) +
      scaledMag (b / 2 ^ 52 % 2 ^ 11) (b % 2 ^ 52) := by omega
  have hq : (0 : ℚ) < (scaledMag (a / 2 ^ 52 % 2 ^ 11) (a % 2 ^ 52) : ℚ) +
      (scaledMag (b / 2 ^ 52 % 2 ^ 11) (b % 2 ^ 52) : ℚ) := by exact_mod_cast hpos
  have hlt : (-1 : ℚ) * (scaledMag (a / 2 ^ 52 % 2 ^ 11) (a % 2 ^ 52) : ℚ) / 2 ^ 1074 <
      1 * (scaledMag (b / 2 ^ 52 % 2 ^ 11) (b % 2 ^ 52) : ℚ) / 2 ^ 1074 := by
    rw [div_lt_div_iff_of_pos_right (by positivity)]
    linarith
  unfold cmpRat
  rw [if_pos hlt]

/-- A non-negative value compares above a negative one unless both are zero. -/
lemma cmpRat_mixed_gt (a b : Nat) (hsa : a / 2 ^ 63 = 0) (hsb : b / 2 ^ 63 ≠ 0)
    (hnz : scaledMag (a / 2 ^ 52 % 2 ^ 11) (a % 2 ^ 52) ≠ 0 ∨
      scaledMag (b / 2 ^ 52 % 2 ^ 11) (b % 2 ^ 52) ≠ 0) :
    cmpRat (f64Val a) (f64Val b) = Ordering.gt := by
  rw [f64Val_eq, f64Val_eq, if_pos hsa, if_neg hsb]
  have hpos : 0 < scaledMag (a / 2 ^ 52 % 2 ^ 11) (a % 2 ^ 52) +
      scaledMag (b / 2 ^ 52 % 2 ^ 11) (b % 2 ^ 52) := by omega
  have hq : (0 : ℚ) < (scaledMag (a / 2 ^ 52 % 2 ^ 11) (a % 2 ^ 52) : ℚ) +
      (scaledMag (b / 2 ^ 52 % 2 ^ 11) (b % 2 ^ 52) : ℚ) := by exact_mod_cast hpos
  have hlt : (-1 : ℚ) * (scaledMag (b / 2 ^ 52 % 2 ^ 11) (b % 2 ^ 52) : ℚ) / 2 ^ 1074 <
      1 * (scaledMag (a / 2 ^ 52 % 2 ^ 11) (a % 2 ^ 52) : ℚ) / 2 ^ 1074 := by
    rw [div_lt_div_iff_of_pos_right (by positivity)]
    linarith
  unfold cmpRat
  rw [if_neg (not_lt.mpr (le_of_lt hlt)), if_neg (Ne.symm (ne_of_lt hlt))]

/-- C2: for finite patterns `a`, `b`, comparing the decompositions agrees with
the real-number comparison of the denoted values, except on the signed-zero
pair, where `-0.0` compares `Less` than `+0.0` although the denoted values are
equal. -/
theorem claim_C2 :
    (∀ a b : Nat, ∀ x y : Float, a < 2 ^ 64 → b < 2 ^ 64 →
      Float.from_f64 a = some x → Float.from_f64 b = some y →
      ¬((a = 0 ∧ b = 2 ^ 63) ∨ (a = 2 ^ 63 ∧ b = 0)) →
      x.cmp y = cmpRat (f64Val a) (f64Val b)) ∧
    (∀ x y : Float, Float.from_f64 (2 ^ 63) = some x → Float.from_f64 0 = some y →
      x.cmp y = Ordering.lt ∧ f64Val (2 ^ 63) = f64Val 0) := by
  constructor
  · intro a b x y ha hb hx hy hne
    by_cases hsa : a / 2 ^ 63 = 0 <;> by_cases hsb : b / 2 ^ 63 = 0
    · rw [cmp_from_pos hx hy hsa hsb, cmpRat_pos a b hsa hsb,
        u64_cmp_scaledMag _ _ _ _ (by omega) (by omega)]
    · obtain ⟨hxe, _⟩ := from_f64_some hx
      obtain ⟨hye, _⟩ := from_f64_some hy
      have hnz : ¬(scaledMag (a / 2 ^ 52 % 2 ^ 11) (a % 2 ^ 52) = 0 ∧
          scaledMag (b / 2 ^ 52 % 2 ^ 11) (b % 2 ^ 52) = 0) := by
        rintro ⟨h1, h2⟩
        rw [scaledMag_eq_zero] at h1 h2
        exact hne (Or.inl ⟨by omega, by omega⟩)
      have hcv : x.cmp y = Ordering.gt := by
        rw [hxe, hye, hsa, show ((0 : Nat) == 0) = true from rfl,
          show (b / 2 ^ 63 == 0) = false from by
            simp only [beq_eq_false_iff_ne, ne_eq]
            exact hsb]
        rfl
      rw [hcv, cmpRat_mixed_gt a b hsa hsb (by tauto)]
    · obtain ⟨hxe, _⟩ := from_f64_some hx
      obtain ⟨hye, _⟩ := from_f64_some hy
      have hnz : ¬(scaledMag (a / 2 ^ 52 % 2 ^ 11) (a % 2 ^ 52) = 0 ∧
          scaledMag (b / 2 ^ 52 % 2 ^ 11) (b % 2 ^ 52) = 0) := by
        rintro ⟨h1, h2⟩
        rw [scaledMag_eq_zero] at h1 h2
        exact hne (Or.inr ⟨by omega, by omega⟩)
      have hcv : x.cmp y = Ordering.lt := by
        rw [hxe, hye, hsb, show ((0 : Nat) == 0) = true from rfl,
          show (a / 2 ^ 63 == 0) = false from by
            simp only [beq_eq_false_iff_ne, ne_eq]
            exact hsa]
        rfl
      rw [hcv, cmpRat_mixed_lt a b hsa hsb (by tauto)]
    · rw [cmp_from_neg hx hy hsa hsb, cmpRat_negs a b hsa hsb,
        u64_cmp_scaledMag _ _ _ _ (by omega) (by omega)]
  · intro x y hx hy
    have hex : Float.from_f64 (2 ^ 63) = some (Float.new 0 0 false) := by decide
    have hey : Float.from_f64 0 = some (Float.new 0 0 true) := by decide
    rw [hex] at hx
    rw [hey] at hy
    cases Option.some.inj hx
    cases Option.some.inj hy
    constructor
    · rfl
    · rw [f64Val_eq, f64Val_eq]
      norm_num [scaledMag]

/-- Witness for C2 at the patterns of `1.0` and `2.0` (main part) and at the
signed-zero pair (exceptional part). -/
theorem claim_C2_witness :
    ((Float.new (2 ^ 52) 1023 true).cmp (Float.new (2 ^ 52) 1024 true) =
      cmpRat (f64Val 4607182418800017408) (f64Val 4611686018427387904)) ∧
    ((Float.new 0 0 false).cmp (Float.new 0 0 true) = Ordering.lt ∧
      f64Val (2 ^ 63) = f64Val 0) :=
  ⟨claim_C2.1 4607182418800017408 4611686018427387904
      (Float.new (2 ^ 52) 1023 true) (Float.new (2 ^ 52) 1024 true)
      (by decide) (by decide) (by decide) (by decide) (by decide),
    claim_C2.2 (Float.new 0 0 false) (Float.new 0 0 true) (by decide) (by decide)⟩

/-- C7: `to_f64` is total and composes the result as
`sign_bit ||| exp_bits ||| mantissa_bits` with the stated fields; for
exponents in the binary64 range the three fields are disjoint and the
composition is also a plain sum. -/
theorem claim_C7 (x : Float) :
    (x.to_f64 = ((if x.sign then 0 else 2 ^ 63) : Nat) |||
        (if x.exponent ≤ 0 then 0 else x.exponent.toNat * 2 ^ 52 % 2 ^ 64) |||
        (if x.exponent ≤ 0 then x.mantissa / 2 % 2 ^ 52 else x.mantissa % 2 ^ 52)) ∧
    (x.exponent ≤ 2047 →
      x.to_f64 = (if x.sign then 0 else 2 ^ 63)
        + (if x.exponent ≤ 0 then 0 else x.exponent.toNat * 2 ^ 52)
        + (if x.exponent ≤ 0 then x.mantissa / 2 % 2 ^ 52 else x.mantissa % 2 ^ 52)) := by
  constructor
  · simp only [Float.to_f64]
    by_cases h0 : x.exponent ≤ 0
    · simp only [if_pos h0]
      rw [ite_not_bool, show (1 : Nat) <<< 63 = 2 ^ 63 by rw [Nat.shiftLeft_eq, one_mul],
        Nat.shiftRight_eq_div_pow, pow_one, land_mask52]
    · simp only [if_neg h0]
      rw [ite_not_bool, show (1 : Nat) <<< 63 = 2 ^ 63 by rw [Nat.shiftLeft_eq, one_mul],
        Nat.shiftLeft_eq, land_mask52]
  · intro hE
    exact to_f64_eq x hE

/-- Witness for C7 at a concrete negative normal value. -/
theorem claim_C7_witness :
    (Float.new 6 1 false).exponent ≤ 2047 ∧
      (Float.new 6 1 false).to_f64 = (if (Float.new 6 1 false).sign then 0 else 2 ^ 63)
        + (if (Float.new 6 1 false).exponent ≤ 0 then 0
           else (Float.new 6 1 false).exponent.toNat * 2 ^ 52)
        + (if (Float.new 6 1 false).exponent ≤ 0 then
            (Float.new 6 1 false).mantissa / 2 % 2 ^ 52
           else (Float.new 6 1 false).mantissa % 2 ^ 52) :=
  ⟨by decide, (claim_C7 (Float.new 6 1 false)).2 (by decide)⟩

end FastFloatCompare
